import Mathlib

/-!
A formal model of the utility module `cmd2/utils.py` (quote handling, type
coercion for settable parameters, natural sorting, duplicate removal and
text-file detection), together with proofs of the behavioural properties
stated in the accompanying specification.

Modelling conventions:
* Python strings are modelled as lists of characters (`PyStr`).  The model is
  faithful on the ASCII fragment: `str.lower`/`str.casefold` are modelled by
  `Char.toLower` (exact on ASCII, where `casefold` and `lower` agree and NFC
  normalization is the identity), and the regex class `\d` as well as the
  digits accepted by `int(...)` are modelled by `Char.isDigit`.
* Fallible Python operations are modelled with `Option`/`Except`; an uncaught
  Python exception is an `Except.error`.
* Machine-level concerns do not arise: Python integers are unbounded, so they
  are modelled by `Int`/`Nat` directly.
-/

namespace Cmd2Utils

/-- A Python string, modelled as its list of characters. -/
abbrev PyStr := List Char

/-- Modelled from the spec: the fixed set of quote characters
`constants.QUOTES` (the `constants` module is not among the sources); per the
spec, quote handling "applies to both single and double quotes". -/
def QUOTES : List Char := ['"', '\'']

/-- Model of `is_quoted`:
`len(arg) > 1 and arg[0] == arg[-1] and arg[0] in constants.QUOTES`.
The guard `len(arg) > 1` is reflected by the nested pattern match, which also
makes the index accesses `arg[0]`/`arg[-1]` total. -/
def is_quoted (arg : PyStr) : Bool :=
  match arg with
  | [] => false
  | c :: rest =>
    match rest.getLast? with
    | none => false
    | some d => c == d && QUOTES.contains c

/-- Model of `quote_string_if_needed`: wrap in double quotes when the string
contains a space and is not already quoted, preferring single quotes when a
double quote already occurs in the string. -/
def quote_string_if_needed (arg : PyStr) : PyStr :=
  if is_quoted arg || !arg.contains ' ' then arg
  else if arg.contains '"' then '\'' :: arg ++ ['\'']
  else '"' :: arg ++ ['"']

/-- Model of `strip_quotes`: `arg[1:-1]` when `is_quoted(arg)`. -/
def strip_quotes (arg : PyStr) : PyStr :=
  if is_quoted arg then (arg.drop 1).dropLast else arg

/-- The ASCII whitespace stripped by Python `int(...)` around a numeric
literal (space, tab, newline, carriage return, vertical tab, form feed). -/
def isPyWs (c : Char) : Bool :=
  c == ' ' || c == '\t' || c == '\n' || c == '\r' || c == '\x0b' || c == '\x0c'

/-- Numeric value of an ASCII digit character. -/
def digitVal (c : Char) : Nat := c.toNat - 48

/-- Digits of an integer literal after its first digit: Python `int(...)`
accepts single underscores, each of which must sit between two digits. -/
def parseUDigitsAux : Nat → List Char → Option Nat
  | acc, [] => some acc
  | acc, c :: rest =>
    if c.isDigit then parseUDigitsAux (10 * acc + digitVal c) rest
    else if c = '_' then
      match rest with
      | [] => none
      | c2 :: rest2 =>
        if c2.isDigit then parseUDigitsAux (10 * acc + digitVal c2) rest2 else none
    else none

/-- An unsigned run of digits as accepted by Python `int(...)`: nonempty,
starting and ending with a digit, underscores only between digits. -/
def parseUDigits : List Char → Option Nat
  | [] => none
  | c :: rest => if c.isDigit then parseUDigitsAux (digitVal c) rest else none

/-- Strip the surrounding whitespace that Python `int(...)` ignores. -/
def stripPyWs (s : List Char) : List Char :=
  ((s.dropWhile isPyWs).reverse.dropWhile isPyWs).reverse

/-- Model of Python `int(new)` on a string: optional surrounding whitespace,
an optional single sign, then a nonempty digit run (with underscores between
digits); `none` models the `ValueError` raised on any other input. -/
def pyInt (s : PyStr) : Option Int :=
  match stripPyWs s with
  | [] => none
  | c :: rest =>
    if c = '+' then (parseUDigits rest).map (fun n => (n : Int))
    else if c = '-' then (parseUDigits rest).map (fun n => -(n : Int))
    else (parseUDigits (c :: rest)).map (fun n => (n : Int))

/-- Model of `str.lower` (exact on the ASCII fragment). -/
def pyLower (s : PyStr) : PyStr := s.map Char.toLower

/-- The Python values `cast` is exercised at: the primitive settable-parameter
types (booleans, integers, strings). -/
inductive PyVal where
  | bool (b : Bool)
  | int (n : Int)
  | str (s : PyStr)
deriving DecidableEq

/-- The one exception `cast` can let escape. -/
inductive PyExc where
  | indexError
deriving DecidableEq

/-- Model of `cast(current, new)`.  The result carries a flag recording
whether the diagnostic `print` at the end of the function ran; an
`Except.error` models an exception escaping the call.  For a boolean current
value the code first tries `bool(int(new))` (catching `ValueError`), then
lowercases `new` and tests `'on'`, `new[0] in ('y','t')`, `'off'`,
`new[0] in ('n','f')` — the subscript `new[0]` is not protected against an
empty string (only `AttributeError` is caught there).  For other types it
tries `typ(new)` catching `ValueError`/`TypeError`. -/
def cast (current : PyVal) (new : PyStr) : Except PyExc (PyVal × Bool) :=
  match current with
  | .bool _ =>
    match pyInt new with
    | some n => .ok (.bool (n != 0), false)
    | none =>
      if pyLower new = ['o', 'n'] then .ok (.bool true, false)
      else
        match pyLower new with
        | [] => .error .indexError
        | c :: _ =>
          if c = 'y' || c = 't' then .ok (.bool true, false)
          else if pyLower new = ['o', 'f', 'f'] then .ok (.bool false, false)
          else if c = 'n' || c = 'f' then .ok (.bool false, false)
          else .ok (current, true)
  | .int _ =>
    match pyInt new with
    | some n => .ok (.int n, false)
    | none => .ok (current, true)
  | .str _ => .ok (.str new, false)

/-! ### Quote handling: supporting lemmas -/

/-- Structural characterisation of `is_quoted`: a quoted string is a quote
character, a middle part, and the same quote character again. -/
theorem is_quoted_iff (s : PyStr) :
    is_quoted s = true ↔ ∃ q mid, q ∈ QUOTES ∧ s = q :: mid ++ [q] := by
  cases s with
  | nil => simp [is_quoted]
  | cons c rest =>
    cases h : rest.getLast? with
    | none =>
      have hr : rest = [] := by simpa using h
      subst hr
      constructor
      · intro hfalse
        simp [is_quoted] at hfalse
      · rintro ⟨q, mid, _, hs⟩
        have := congrArg List.length hs
        simp at this
    | some d =>
      constructor
      · intro hq
        have hcd : c = d ∧ QUOTES.contains c = true := by
          have := hq
          simp only [is_quoted, h, Bool.and_eq_true, beq_iff_eq] at this
          exact this
        refine ⟨c, rest.dropLast, by simpa using hcd.2, ?_⟩
        have h2 : rest.dropLast ++ [d] = rest := List.dropLast_append_getLast? d h
        rw [hcd.1]
        conv_lhs => rw [← h2]
        simp
      · rintro ⟨q, mid, hq, hs⟩
        have hc : c = q := by
          have := congrArg List.head? hs
          simpa using this
        have hrest : rest = mid ++ [q] := by
          have := congrArg List.tail hs
          simpa using this
        have hd : q = d := by
          have := h
          rw [hrest] at this
          simpa using this
        subst hc
        subst hd
        simp [is_quoted, h, hq]

/-- A string of length at most one is never quoted. -/
theorem is_quoted_short (s : PyStr) (h : s.length ≤ 1) : is_quoted s = false := by
  cases s with
  | nil => simp [is_quoted]
  | cons c rest =>
    cases rest with
    | nil => simp [is_quoted]
    | cons c2 rest2 => simp at h

/-- `strip_quotes` removes exactly one matching pair of quote characters. -/
theorem strip_quotes_wrap (q : Char) (mid : PyStr) (hq : q ∈ QUOTES) :
    strip_quotes (q :: mid ++ [q]) = mid := by
  have hquoted : is_quoted (q :: mid ++ [q]) = true :=
    (is_quoted_iff _).mpr ⟨q, mid, hq, rfl⟩
  simp only [List.cons_append] at hquoted ⊢
  simp [strip_quotes, hquoted]

/-- A string with no quote characters at all is not quoted. -/
theorem not_quoted_of_no_quote_chars (s : PyStr) (h : ∀ c ∈ s, c ∉ QUOTES) :
    is_quoted s = false := by
  cases hq : is_quoted s with
  | false => rfl
  | true =>
    obtain ⟨q, mid, hqm, hs⟩ := (is_quoted_iff s).mp hq
    exact absurd hqm (h q (by simp [hs]))

/-! ### Claim theorems about quoting -/

/-- C8: `is_quoted(arg)` holds exactly when `arg` is longer than one
character with equal first and last characters drawn from the quote set
(equivalently, when it decomposes as a quote character around a middle part);
strings of length ≤ 1 are never quoted; and `strip_quotes` removes exactly
one matching quote pair from a quoted string and leaves non-quoted strings
unchanged. -/
theorem quoting_detection_and_stripping :
    (∀ s : PyStr, is_quoted s = true ↔ ∃ q mid, q ∈ QUOTES ∧ s = q :: mid ++ [q]) ∧
    (∀ s : PyStr, s.length ≤ 1 → is_quoted s = false) ∧
    (∀ q : Char, ∀ mid : PyStr, q ∈ QUOTES → strip_quotes (q :: mid ++ [q]) = mid) ∧
    (∀ s : PyStr, is_quoted s = false → strip_quotes s = s) :=
  ⟨is_quoted_iff, is_quoted_short, strip_quotes_wrap,
   fun s h => by simp [strip_quotes, h]⟩

/-- Witness for C8 at concrete inputs. -/
theorem quoting_detection_and_stripping_witness :
    is_quoted ['"', 'a', '"'] = true ∧ is_quoted ['a'] = false ∧
    strip_quotes ['"', 'a', ' ', 'b', '"'] = ['a', ' ', 'b'] ∧
    strip_quotes ['a', 'b'] = ['a', 'b'] :=
  ⟨(quoting_detection_and_stripping.1 _).mpr ⟨'"', ['a'], by decide, rfl⟩,
   quoting_detection_and_stripping.2.1 ['a'] (by decide),
   quoting_detection_and_stripping.2.2.1 '"' ['a', ' ', 'b'] (by decide),
   quoting_detection_and_stripping.2.2.2 ['a', 'b'] (by decide)⟩

/-- C2 counterexample: the already single-quoted string `'a b'` contains a
space and no double quote, yet `quote_string_if_needed` returns it unchanged
rather than wrapped in double quotes as the claim states. -/
theorem quote_string_if_needed_claim_cex :
    (['\'', 'a', ' ', 'b', '\''].contains ' ' = true) ∧
    (['\'', 'a', ' ', 'b', '\''].contains '"' = false) ∧
    quote_string_if_needed ['\'', 'a', ' ', 'b', '\''] ≠
      '"' :: ['\'', 'a', ' ', 'b', '\''] ++ ['"'] := by
  decide

/-- C2 amended: for every string that contains a space and is not already
quoted, `quote_string_if_needed` wraps it in double quotes, or in single
quotes when the string contains a double quote. -/
theorem quote_string_if_needed_amended (s : PyStr)
    (hq : is_quoted s = false) (hsp : s.contains ' ' = true) :
    (s.contains '"' = false → quote_string_if_needed s = '"' :: s ++ ['"']) ∧
    (s.contains '"' = true → quote_string_if_needed s = '\'' :: s ++ ['\'']) := by
  have hsp2 : ' ' ∈ s := by simpa using hsp
  constructor <;> intro hdq
  · have hdq2 : ¬ ('"' ∈ s) := by simpa using hdq
    simp [quote_string_if_needed, hq, hsp2, hdq2]
  · have hdq2 : '"' ∈ s := by simpa using hdq
    simp [quote_string_if_needed, hq, hsp2, hdq2]

/-- Witness for the amended C2 at concrete inputs. -/
theorem quote_string_if_needed_amended_witness :
    quote_string_if_needed ['a', ' ', 'b'] = ['"', 'a', ' ', 'b', '"'] ∧
    quote_string_if_needed ['a', ' ', '"'] = ['\'', 'a', ' ', '"', '\''] :=
  ⟨(quote_string_if_needed_amended ['a', ' ', 'b'] (by decide) (by decide)).1 (by decide),
   (quote_string_if_needed_amended ['a', ' ', '"'] (by decide) (by decide)).2 (by decide)⟩

/-- C4: quoting followed by stripping recovers any string that contains no
quote character of its own. -/
theorem strip_quotes_round_trip (s : PyStr) (hnq : ∀ c ∈ s, c ∉ QUOTES) :
    strip_quotes (quote_string_if_needed s) = s := by
  have hq : is_quoted s = false := not_quoted_of_no_quote_chars s hnq
  by_cases hsp : s.contains ' '
  · have hdq : s.contains '"' = false := by
      cases hdq : s.contains '"' with
      | false => rfl
      | true =>
        have : '"' ∈ s := by simpa using hdq
        exact absurd (by decide : ('"' : Char) ∈ QUOTES) (hnq '"' this)
    have hsp2 : ' ' ∈ s := by simpa using hsp
    have hdq2 : ¬ ('"' ∈ s) := by simpa using hdq
    have : quote_string_if_needed s = '"' :: s ++ ['"'] := by
      simp [quote_string_if_needed, hq, hsp2, hdq2]
    rw [this]
    exact strip_quotes_wrap '"' s (by decide)
  · have hsp2 : ¬ (' ' ∈ s) := by simpa using hsp
    have : quote_string_if_needed s = s := by
      simp [quote_string_if_needed, hq, hsp2]
    rw [this]
    simp [strip_quotes, hq]

/-- Witness for C4 at a concrete input. -/
theorem strip_quotes_round_trip_witness :
    strip_quotes (quote_string_if_needed ['a', ' ', 'b']) = ['a', ' ', 'b'] :=
  strip_quotes_round_trip ['a', ' ', 'b'] (by decide)

/-! ### Type coercion (`cast`) -/

/-- C1 (bug evidence): for a boolean current value and the empty string,
`cast` raises `IndexError` (the subscript `new[0]` in the boolean branch is
only guarded against `AttributeError`), contradicting the stated policy that
`cast` never raises; at the spec's own example the diagnostic path works:
`cast(5, "abc")` returns `5` with the diagnostic flag set. -/
theorem cast_raises_on_empty_string_for_bool :
    cast (PyVal.bool true) [] = Except.error PyExc.indexError ∧
    cast (PyVal.int 5) ['a', 'b', 'c'] = Except.ok (PyVal.int 5, true) :=
  ⟨rfl, rfl⟩

/-- C10: for a boolean current value, any new string accepted by Python
`int(...)` is coerced through `bool(int(new))`: the result is the truth value
of the parsed integer being nonzero. -/
theorem cast_bool_parses_any_int (b : Bool) (s : PyStr) (n : Int)
    (h : pyInt s = some n) :
    cast (PyVal.bool b) s = Except.ok (PyVal.bool (n != 0), false) := by
  simp [cast, h]

/-- Witness for C10 at the claim's concrete inputs. -/
theorem cast_bool_parses_any_int_witness :
    cast (PyVal.bool true) ['2'] = Except.ok (PyVal.bool true, false) ∧
    cast (PyVal.bool true) ['-', '1'] = Except.ok (PyVal.bool true, false) ∧
    cast (PyVal.bool true) ['0', '0'] = Except.ok (PyVal.bool false, false) := by
  refine ⟨?_, ?_, ?_⟩
  · have := cast_bool_parses_any_int true ['2'] 2 (by decide)
    simpa using this
  · have := cast_bool_parses_any_int true ['-', '1'] (-1) (by decide)
    simpa using this
  · have := cast_bool_parses_any_int true ['0', '0'] 0 (by decide)
    simpa using this

/-- Evaluation of the boolean branch of `cast` when integer parsing fails and
the lowercased string is empty. -/
theorem cast_bool_none_nil (b : Bool) (s : PyStr)
    (h : pyInt s = none) (hL : pyLower s = []) :
    cast (PyVal.bool b) s = Except.error PyExc.indexError := by
  simp [cast, h, hL]

/-- Evaluation of the boolean branch of `cast` when integer parsing fails and
the lowercased string is nonempty: the remaining textual vocabulary chain. -/
theorem cast_bool_none_cons (b : Bool) (s : PyStr) (c : Char) (t : List Char)
    (h : pyInt s = none) (hL : pyLower s = c :: t) :
    cast (PyVal.bool b) s =
      (if c :: t = ['o', 'n'] then Except.ok (PyVal.bool true, false)
       else if c = 'y' || c = 't' then Except.ok (PyVal.bool true, false)
       else if c :: t = ['o', 'f', 'f'] then Except.ok (PyVal.bool false, false)
       else if c = 'n' || c = 'f' then Except.ok (PyVal.bool false, false)
       else Except.ok (PyVal.bool b, true)) := by
  simp only [cast, h, hL]

/-- C3 counterexample: the string `"2"` matches none of the claim's textual
boolean vocabulary (it is not `"1"`, not `"on"`, and does not begin with `y`
or `t`), so by the claim `cast(False, "2")` should return the current value
`False`; the code instead parses it as the integer 2 and returns `True`. -/
theorem cast_bool_claim_cex :
    cast (PyVal.bool false) ['2'] = Except.ok (PyVal.bool true, false) ∧
    ['2'] ≠ (['1'] : PyStr) ∧ pyLower ['2'] ≠ ['o', 'n'] ∧
    (pyLower ['2']).head? ≠ some 'y' ∧ (pyLower ['2']).head? ≠ some 't' :=
  ⟨rfl, by decide, by decide, by decide, by decide⟩

/-- C3 amended: for a boolean current value, `cast` returns `True` exactly
when `new` parses as a nonzero Python integer or, failing integer parsing,
lowercases to `on` or begins (lowercased) with `y` or `t`; it returns `False`
exactly when `new` parses as integer zero or, failing that, lowercases to
`off` or begins with `n` or `f`; it raises `IndexError` exactly when `new`
fails integer parsing and is the empty string; and in the remaining cases it
returns the current value after printing the diagnostic. -/
theorem cast_bool_amended (b : Bool) (s : PyStr) :
    (cast (PyVal.bool b) s = Except.ok (PyVal.bool true, false) ↔
      (∃ n, pyInt s = some n ∧ n ≠ 0) ∨
      (pyInt s = none ∧ (pyLower s = ['o', 'n'] ∨
        (pyLower s).head? = some 'y' ∨ (pyLower s).head? = some 't'))) ∧
    (cast (PyVal.bool b) s = Except.ok (PyVal.bool false, false) ↔
      pyInt s = some 0 ∨
      (pyInt s = none ∧ pyLower s ≠ ['o', 'n'] ∧
        (pyLower s).head? ≠ some 'y' ∧ (pyLower s).head? ≠ some 't' ∧
        (pyLower s = ['o', 'f', 'f'] ∨
          (pyLower s).head? = some 'n' ∨ (pyLower s).head? = some 'f'))) ∧
    (cast (PyVal.bool b) s = Except.error PyExc.indexError ↔
      pyInt s = none ∧ s = []) ∧
    (cast (PyVal.bool b) s = Except.ok (PyVal.bool b, true) ↔
      pyInt s = none ∧ s ≠ [] ∧ pyLower s ≠ ['o', 'n'] ∧
        (pyLower s).head? ≠ some 'y' ∧ (pyLower s).head? ≠ some 't' ∧
        pyLower s ≠ ['o', 'f', 'f'] ∧
        (pyLower s).head? ≠ some 'n' ∧ (pyLower s).head? ≠ some 'f') := by
  cases hint : pyInt s with
  | some n =>
    have hc : cast (PyVal.bool b) s = Except.ok (PyVal.bool (n != 0), false) := by
      simp [cast, hint]
    refine ⟨?_, ?_, ?_, ?_⟩ <;> rw [hc] <;> simp [hint]
  | none =>
    cases hL : pyLower s with
    | nil =>
      have hs : s = [] := by simpa [pyLower] using hL
      have hc : cast (PyVal.bool b) s = Except.error PyExc.indexError :=
        cast_bool_none_nil b s hint hL
      subst hs
      refine ⟨?_, ?_, ?_, ?_⟩ <;> rw [hc] <;> simp [hint, pyLower]
    | cons c t =>
      have hs : s ≠ [] := by
        intro h
        rw [h] at hL
        simp [pyLower] at hL
      have hc := cast_bool_none_cons b s c t hint hL
      by_cases hon : c :: t = (['o', 'n'] : List Char)
      · obtain ⟨hc1, ht1⟩ : c = 'o' ∧ t = ['n'] := by
          injection hon with h1 h2
          exact ⟨h1, h2⟩
        subst hc1; subst ht1
        simp at hc
        refine ⟨?_, ?_, ?_, ?_⟩ <;> rw [hc] <;> simp [hint, hL, hs]
      · by_cases hy : c = 'y'
        · subst hy
          simp [hon] at hc
          refine ⟨?_, ?_, ?_, ?_⟩ <;> rw [hc] <;> simp [hint, hL, hs, hon]
        · by_cases ht : c = 't'
          · subst ht
            simp [hon] at hc
            refine ⟨?_, ?_, ?_, ?_⟩ <;> rw [hc] <;> simp [hint, hL, hs, hon]
          · by_cases hoff : c :: t = (['o', 'f', 'f'] : List Char)
            · obtain ⟨hc1, ht1⟩ : c = 'o' ∧ t = ['f', 'f'] := by
                injection hoff with h1 h2
                exact ⟨h1, h2⟩
              subst hc1; subst ht1
              simp [hon] at hc
              refine ⟨?_, ?_, ?_, ?_⟩ <;> rw [hc] <;> simp [hint, hL, hs, hon]
            · by_cases hn : c = 'n'
              · subst hn
                simp [hon, hoff] at hc
                refine ⟨?_, ?_, ?_, ?_⟩ <;> rw [hc] <;>
                  simp [hint, hL, hs, hon, hoff]
              · by_cases hf : c = 'f'
                · subst hf
                  simp [hon, hoff] at hc
                  refine ⟨?_, ?_, ?_, ?_⟩ <;> rw [hc] <;>
                    simp [hint, hL, hs, hon, hoff]
                · simp [hon, hoff, hy, ht, hn, hf] at hc
                  refine ⟨?_, ?_, ?_, ?_⟩ <;> rw [hc] <;>
                    simp [hint, hL, hs, hon, hoff, hy, ht, hn, hf]

/-- Witness for the amended C3 at concrete inputs. -/
theorem cast_bool_amended_witness :
    cast (PyVal.bool false) ['2'] = Except.ok (PyVal.bool true, false) ∧
    cast (PyVal.bool true) ['o', 'F', 'f'] = Except.ok (PyVal.bool false, false) ∧
    cast (PyVal.bool true) [] = Except.error PyExc.indexError ∧
    cast (PyVal.bool true) ['x'] = Except.ok (PyVal.bool true, true) :=
  ⟨(cast_bool_amended false ['2']).1.mpr (Or.inl ⟨2, by decide, by decide⟩),
   (cast_bool_amended true ['o', 'F', 'f']).2.1.mpr
     (Or.inr ⟨by decide, by decide, by decide, by decide, Or.inl (by decide)⟩),
   (cast_bool_amended true []).2.2.1.mpr ⟨by decide, rfl⟩,
   (cast_bool_amended true ['x']).2.2.2.mpr
     ⟨by decide, by decide, by decide, by decide, by decide, by decide,
      by decide, by decide⟩⟩

/-! ### Natural sorting -/

/-- Model of `norm_fold`: `unicodedata.normalize('NFC', astr).casefold()`.
On the ASCII fragment covered by this model, NFC normalization is the
identity and case folding agrees with lowercasing. -/
def norm_fold (astr : PyStr) : PyStr := astr.map Char.toLower

/-- A natural-sort key entry: either an integer or a (folded) string.  This
models the `Union[int, str]` element type of the Python key lists. -/
inductive SortKey where
  | int (n : Int)
  | str (s : PyStr)
deriving DecidableEq

/-- Model of `try_int_or_force_to_lower_case`: `int(input_str)` when that
succeeds, otherwise `norm_fold(input_str)`. -/
def try_int_or_force_to_lower_case (input_str : PyStr) : SortKey :=
  match pyInt input_str with
  | some n => .int n
  | none => .str (norm_fold input_str)

/-- If `dropWhile p` produces a cons, its head fails `p`. -/
theorem dropWhile_head_false {α : Type} {p : α → Bool} {l t : List α} {d : α}
    (h : l.dropWhile p = d :: t) : p d = false := by
  induction l with
  | nil => simp [List.dropWhile] at h
  | cons a as ih =>
    rw [List.dropWhile_cons] at h
    by_cases hp : p a = true
    · rw [if_pos hp] at h
      exact ih h
    · rw [if_neg hp] at h
      cases h
      simpa using hp

/-- One splitting pass for `re.split('(\d+)', input_str)`, written with an
explicit recursion budget so that the definition is structurally recursive
(and hence computable by the kernel).  Each recursive step consumes at least
one character (the head of a nonempty digit run), so a budget of `s.length`
always suffices; this is proved below, and `splitDigitRuns` only ever calls
the zero-budget fallback on the empty remainder, where `[s] = [[]]` is the
correct answer anyway. -/
def splitDigitRunsGo : Nat → PyStr → List PyStr
  | 0, s => [s]
  | n + 1, s =>
    match s.dropWhile (fun c => !c.isDigit) with
    | [] => [s]
    | d :: t =>
      s.takeWhile (fun c => !c.isDigit) ::
        (d :: t).takeWhile Char.isDigit ::
          splitDigitRunsGo n ((d :: t).dropWhile Char.isDigit)

/-- Model of `re.split('(\d+)', input_str)`: split the string at maximal
digit runs, keeping the runs (the capture group).  The parts alternate
between possibly-empty digit-free parts and nonempty all-digit runs,
beginning and ending with a digit-free part. -/
def splitDigitRuns (s : PyStr) : List PyStr := splitDigitRunsGo s.length s

/-- Model of `natural_keys`: map `try_int_or_force_to_lower_case` over the
parts of `re.split('(\d+)', input_str)`. -/
def natural_keys (input_str : PyStr) : List SortKey :=
  (splitDigitRuns input_str).map try_int_or_force_to_lower_case

/-- Python comparison of two integers, as a three-way ordering. -/
def intCmp (a b : Int) : Ordering :=
  if a < b then .lt else if b < a then .gt else .eq

/-- Python comparison of two characters: by code point. -/
def chCmp (a b : Char) : Ordering :=
  if a.toNat < b.toNat then .lt else if b.toNat < a.toNat then .gt else .eq

/-- Python comparison of two strings: lexicographic by code point, with a
proper prefix ordered first. -/
def cmpStrLex : PyStr → PyStr → Ordering
  | [], [] => .eq
  | [], _ :: _ => .lt
  | _ :: _, [] => .gt
  | a :: as, b :: bs =>
    match chCmp a b with
    | .eq => cmpStrLex as bs
    | .lt => .lt
    | .gt => .gt

/-- Python comparison of two key entries: `none` models the `TypeError`
raised when an `int` meets a `str`. -/
def cmpKey : SortKey → SortKey → Option Ordering
  | .int a, .int b => some (intCmp a b)
  | .str a, .str b => some (cmpStrLex a b)
  | .int _, .str _ => none
  | .str _, .int _ => none

/-- Python comparison of two key lists: lexicographic, element by element,
with a proper prefix ordered first; a cross-type element comparison
propagates as `none` (a `TypeError`). -/
def cmpKeys : List SortKey → List SortKey → Option Ordering
  | [], [] => some .eq
  | [], _ :: _ => some .lt
  | _ :: _, [] => some .gt
  | a :: as, b :: bs =>
    match cmpKey a b with
    | none => none
    | some .eq => cmpKeys as bs
    | some .lt => some .lt
    | some .gt => some .gt

/-- Comparison of two strings by their natural keys, as performed between
list elements inside `natural_sort`. -/
def natKeyCmp (x y : PyStr) : Option Ordering :=
  cmpKeys (natural_keys x) (natural_keys y)

/-- The "less or equivalent" relation induced by `natKeyCmp`; list elements
`x` ordered before `y` by `natural_sort` satisfy it. -/
def natLe (x y : PyStr) : Prop := natKeyCmp x y ≠ some .gt

/-- Stable insertion of `x` into an already-sorted list: `x` moves past
exactly the elements strictly below it and lands before the first element it
does not exceed, i.e. before all elements with an equivalent key (they stem
from later input positions).  A `none` comparison (Python `TypeError`)
aborts the sort. -/
def insertByKey (x : PyStr) : List PyStr → Option (List PyStr)
  | [] => some [x]
  | y :: ys =>
    match natKeyCmp x y with
    | none => none
    | some .gt => (insertByKey x ys).map (fun r => y :: r)
    | some _ => some (x :: y :: ys)

/-- Model of `natural_sort`: `sorted(list_to_sort, key=natural_keys)`.
Python's `sorted` is a stable sort; it is modelled by stable insertion sort
(fold from the right), which computes the same list as any stable sort for a
total transitive comparison — totality and transitivity over natural keys
are proved below.  A `none` result models a `TypeError` escaping `sorted`. -/
def natural_sort : List PyStr → Option (List PyStr)
  | [] => some []
  | x :: xs => (natural_sort xs).bind (insertByKey x)

/-! ### Comparator algebra -/

theorem intCmp_lt_iff (a b : Int) : intCmp a b = .lt ↔ a < b := by
  unfold intCmp
  split_ifs <;> simp <;> omega

theorem intCmp_gt_iff (a b : Int) : intCmp a b = .gt ↔ b < a := by
  unfold intCmp
  split_ifs <;> simp <;> omega

theorem intCmp_eq_iff (a b : Int) : intCmp a b = .eq ↔ a = b := by
  unfold intCmp
  split_ifs <;> simp <;> omega

/-- Characters compare equal exactly when they are equal. -/
theorem char_toNat_inj {a b : Char} (h : a.toNat = b.toNat) : a = b := by
  have := congrArg Char.ofNat h
  simpa [Char.ofNat_toNat] using this

theorem chCmp_lt_iff (a b : Char) : chCmp a b = .lt ↔ a.toNat < b.toNat := by
  unfold chCmp
  split_ifs <;> simp <;> omega

theorem chCmp_gt_iff (a b : Char) : chCmp a b = .gt ↔ b.toNat < a.toNat := by
  unfold chCmp
  split_ifs <;> simp <;> omega

theorem chCmp_eq_iff (a b : Char) : chCmp a b = .eq ↔ a = b := by
  unfold chCmp
  split_ifs with h1 h2 <;> simp
  · intro h
    rw [h] at h1
    omega
  · intro h
    rw [h] at h2
    omega
  · exact char_toNat_inj (by omega)

theorem chCmp_swap (a b : Char) : chCmp b a = (chCmp a b).swap := by
  unfold chCmp
  split_ifs <;> simp [Ordering.swap] <;> omega

theorem intCmp_swap (a b : Int) : intCmp b a = (intCmp a b).swap := by
  unfold intCmp
  split_ifs <;> simp [Ordering.swap] <;> omega

theorem cmpStrLex_cons_eq {a b : Char} {as bs : List Char} (h : chCmp a b = .eq) :
    cmpStrLex (a :: as) (b :: bs) = cmpStrLex as bs := by
  simp only [cmpStrLex, h]

theorem cmpStrLex_cons_lt {a b : Char} {as bs : List Char} (h : chCmp a b = .lt) :
    cmpStrLex (a :: as) (b :: bs) = .lt := by
  simp only [cmpStrLex, h]

theorem cmpStrLex_cons_gt {a b : Char} {as bs : List Char} (h : chCmp a b = .gt) :
    cmpStrLex (a :: as) (b :: bs) = .gt := by
  simp only [cmpStrLex, h]

theorem cmpStrLex_refl (a : PyStr) : cmpStrLex a a = .eq := by
  induction a with
  | nil => rfl
  | cons c as ih =>
    rw [cmpStrLex_cons_eq ((chCmp_eq_iff c c).mpr rfl)]
    exact ih

theorem cmpStrLex_eq_iff (a b : PyStr) : cmpStrLex a b = .eq ↔ a = b := by
  induction a generalizing b with
  | nil => cases b <;> simp [cmpStrLex]
  | cons c as ih =>
    cases b with
    | nil => simp [cmpStrLex]
    | cons d bs =>
      cases hcd : chCmp c d with
      | eq =>
        have hc : c = d := (chCmp_eq_iff c d).mp hcd
        subst hc
        rw [cmpStrLex_cons_eq hcd]
        simp [ih]
      | lt =>
        rw [cmpStrLex_cons_lt hcd]
        constructor
        · intro h
          cases h
        · intro h
          injection h with h1 h2
          subst h1
          simp [(chCmp_eq_iff c c).mpr rfl] at hcd
      | gt =>
        rw [cmpStrLex_cons_gt hcd]
        constructor
        · intro h
          cases h
        · intro h
          injection h with h1 h2
          subst h1
          simp [(chCmp_eq_iff c c).mpr rfl] at hcd

theorem cmpStrLex_swap (a b : PyStr) : cmpStrLex b a = (cmpStrLex a b).swap := by
  induction a generalizing b with
  | nil => cases b <;> rfl
  | cons c as ih =>
    cases b with
    | nil => rfl
    | cons d bs =>
      cases hcd : chCmp c d with
      | eq =>
        have hc : c = d := (chCmp_eq_iff c d).mp hcd
        subst hc
        rw [cmpStrLex_cons_eq hcd, cmpStrLex_cons_eq hcd]
        exact ih bs
      | lt =>
        have hdc : chCmp d c = .gt := by
          rw [chCmp_swap, hcd]
          rfl
        rw [cmpStrLex_cons_gt hdc, cmpStrLex_cons_lt hcd]
        rfl
      | gt =>
        have hdc : chCmp d c = .lt := by
          rw [chCmp_swap, hcd]
          rfl
        rw [cmpStrLex_cons_lt hdc, cmpStrLex_cons_gt hcd]
        rfl

theorem cmpStrLex_lt_trans {a b c : PyStr}
    (h1 : cmpStrLex a b = .lt) (h2 : cmpStrLex b c = .lt) : cmpStrLex a c = .lt := by
  induction a generalizing b c with
  | nil =>
    cases b with
    | nil => simp [cmpStrLex] at h1
    | cons d bs =>
      cases c with
      | nil => simp [cmpStrLex] at h2
      | cons e cs => rfl
  | cons x as ih =>
    cases b with
    | nil => simp [cmpStrLex] at h1
    | cons d bs =>
      cases c with
      | nil => simp [cmpStrLex] at h2
      | cons e cs =>
        cases hxd : chCmp x d with
        | gt =>
          rw [cmpStrLex_cons_gt hxd] at h1
          cases h1
        | lt =>
          cases hde : chCmp d e with
          | gt =>
            rw [cmpStrLex_cons_gt hde] at h2
            cases h2
          | lt =>
            refine cmpStrLex_cons_lt ?_
            rw [chCmp_lt_iff] at hxd hde ⊢
            omega
          | eq =>
            have hd : d = e := (chCmp_eq_iff d e).mp hde
            subst hd
            exact cmpStrLex_cons_lt hxd
        | eq =>
          have hx : x = d := (chCmp_eq_iff x d).mp hxd
          subst hx
          rw [cmpStrLex_cons_eq hxd] at h1
          cases hxe : chCmp x e with
          | gt =>
            rw [cmpStrLex_cons_gt hxe] at h2
            cases h2
          | lt => exact cmpStrLex_cons_lt hxe
          | eq =>
            have hx2 : x = e := (chCmp_eq_iff x e).mp hxe
            subst hx2
            rw [cmpStrLex_cons_eq hxe] at h2
            rw [cmpStrLex_cons_eq hxe]
            exact ih h1 h2

theorem cmpKey_refl (k : SortKey) : cmpKey k k = some .eq := by
  cases k with
  | int n => simp [cmpKey, (intCmp_eq_iff n n).mpr rfl]
  | str s => simp [cmpKey, cmpStrLex_refl]

theorem cmpKey_eq {a b : SortKey} (h : cmpKey a b = some .eq) : a = b := by
  cases a <;> cases b <;> simp only [cmpKey, Option.some.injEq] at h <;> try cases h
  · rw [(intCmp_eq_iff _ _).mp h]
  · rw [(cmpStrLex_eq_iff _ _).mp h]

theorem cmpKey_swap {a b : SortKey} {o : Ordering} (h : cmpKey a b = some o) :
    cmpKey b a = some o.swap := by
  cases a <;> cases b <;> simp only [cmpKey, Option.some.injEq] at h ⊢ <;> try cases h
  · exact intCmp_swap _ _
  · exact cmpStrLex_swap _ _

theorem cmpKey_lt_trans {a b c : SortKey}
    (h1 : cmpKey a b = some .lt) (h2 : cmpKey b c = some .lt) :
    cmpKey a c = some .lt := by
  cases a <;> cases b <;> cases c <;>
    simp only [cmpKey, Option.some.injEq] at h1 h2 ⊢ <;> try cases h1
  all_goals try cases h2
  · rw [intCmp_lt_iff] at h1 h2 ⊢
    omega
  · exact cmpStrLex_lt_trans h1 h2

theorem cmpKeys_cons_none {a b : SortKey} {as bs : List SortKey}
    (h : cmpKey a b = none) : cmpKeys (a :: as) (b :: bs) = none := by
  simp only [cmpKeys, h]

theorem cmpKeys_cons_eq {a b : SortKey} {as bs : List SortKey}
    (h : cmpKey a b = some .eq) : cmpKeys (a :: as) (b :: bs) = cmpKeys as bs := by
  simp only [cmpKeys, h]

theorem cmpKeys_cons_lt {a b : SortKey} {as bs : List SortKey}
    (h : cmpKey a b = some .lt) : cmpKeys (a :: as) (b :: bs) = some .lt := by
  simp only [cmpKeys, h]

theorem cmpKeys_cons_gt {a b : SortKey} {as bs : List SortKey}
    (h : cmpKey a b = some .gt) : cmpKeys (a :: as) (b :: bs) = some .gt := by
  simp only [cmpKeys, h]

theorem cmpKeys_refl (k : List SortKey) : cmpKeys k k = some .eq := by
  induction k with
  | nil => rfl
  | cons a as ih =>
    rw [cmpKeys_cons_eq (cmpKey_refl a)]
    exact ih

theorem cmpKeys_eq {k1 k2 : List SortKey} (h : cmpKeys k1 k2 = some .eq) :
    k1 = k2 := by
  induction k1 generalizing k2 with
  | nil =>
    cases k2 with
    | nil => rfl
    | cons b bs => simp [cmpKeys] at h
  | cons a as ih =>
    cases k2 with
    | nil => simp [cmpKeys] at h
    | cons b bs =>
      cases hab : cmpKey a b with
      | none =>
        rw [cmpKeys_cons_none hab] at h
        cases h
      | some o =>
        cases o with
        | lt =>
          rw [cmpKeys_cons_lt hab] at h
          simp at h
        | gt =>
          rw [cmpKeys_cons_gt hab] at h
          simp at h
        | eq =>
          rw [cmpKeys_cons_eq hab] at h
          rw [cmpKey_eq hab, ih h]

theorem cmpKeys_swap {k1 k2 : List SortKey} {o : Ordering}
    (h : cmpKeys k1 k2 = some o) : cmpKeys k2 k1 = some o.swap := by
  induction k1 generalizing k2 o with
  | nil =>
    cases k2 with
    | nil =>
      simp only [cmpKeys, Option.some.injEq] at h
      subst h
      rfl
    | cons b bs =>
      simp only [cmpKeys, Option.some.injEq] at h
      subst h
      rfl
  | cons a as ih =>
    cases k2 with
    | nil =>
      simp only [cmpKeys, Option.some.injEq] at h
      subst h
      rfl
    | cons b bs =>
      cases hab : cmpKey a b with
      | none =>
        rw [cmpKeys_cons_none hab] at h
        cases h
      | some o1 =>
        cases o1 with
        | lt =>
          rw [cmpKeys_cons_lt hab] at h
          simp only [Option.some.injEq] at h
          subst h
          have hba : cmpKey b a = some .gt := cmpKey_swap hab
          rw [cmpKeys_cons_gt hba]
          rfl
        | gt =>
          rw [cmpKeys_cons_gt hab] at h
          simp only [Option.some.injEq] at h
          subst h
          have hba : cmpKey b a = some .lt := cmpKey_swap hab
          rw [cmpKeys_cons_lt hba]
          rfl
        | eq =>
          rw [cmpKeys_cons_eq hab] at h
          have hba : cmpKey b a = some .eq := cmpKey_swap hab
          rw [cmpKeys_cons_eq hba]
          exact ih h

theorem cmpKeys_lt_trans {k1 k2 k3 : List SortKey}
    (h1 : cmpKeys k1 k2 = some .lt) (h2 : cmpKeys k2 k3 = some .lt) :
    cmpKeys k1 k3 = some .lt := by
  induction k1 generalizing k2 k3 with
  | nil =>
    cases k2 with
    | nil => simp [cmpKeys] at h1
    | cons b bs =>
      cases k3 with
      | nil => simp [cmpKeys] at h2
      | cons c cs => rfl
  | cons a as ih =>
    cases k2 with
    | nil => simp [cmpKeys] at h1
    | cons b bs =>
      cases k3 with
      | nil => simp [cmpKeys] at h2
      | cons c cs =>
        cases hab : cmpKey a b with
        | none =>
          rw [cmpKeys_cons_none hab] at h1
          cases h1
        | some o1 =>
          cases o1 with
          | gt =>
            rw [cmpKeys_cons_gt hab] at h1
            simp at h1
          | lt =>
            cases hbc : cmpKey b c with
            | none =>
              rw [cmpKeys_cons_none hbc] at h2
              cases h2
            | some o2 =>
              cases o2 with
              | gt =>
                rw [cmpKeys_cons_gt hbc] at h2
                simp at h2
              | lt => exact cmpKeys_cons_lt (cmpKey_lt_trans hab hbc)
              | eq =>
                have hb : b = c := cmpKey_eq hbc
                subst hb
                exact cmpKeys_cons_lt hab
          | eq =>
            have hab2 : a = b := cmpKey_eq hab
            subst hab2
            rw [cmpKeys_cons_eq hab] at h1
            cases hbc : cmpKey a c with
            | none =>
              rw [cmpKeys_cons_none hbc] at h2
              cases h2
            | some o2 =>
              cases o2 with
              | gt =>
                rw [cmpKeys_cons_gt hbc] at h2
                simp at h2
              | lt => exact cmpKeys_cons_lt hbc
              | eq =>
                have hb : a = c := cmpKey_eq hbc
                subst hb
                rw [cmpKeys_cons_eq hbc] at h2 ⊢
                exact ih h1 h2

/-! ### Shape of the split and of natural keys -/

/-- A list of chars with no `p`-satisfying element is untouched by
`dropWhile p`. -/
theorem dropWhile_no {α : Type} (p : α → Bool) (l : List α)
    (h : ∀ c ∈ l, p c = false) : l.dropWhile p = l := by
  cases l with
  | nil => rfl
  | cons a as =>
    rw [List.dropWhile_cons, if_neg]
    simp [h a (by simp)]

/-- `parseUDigits` demands a leading digit. -/
theorem parseUDigits_none_of_no_digit {l : List Char}
    (h : ∀ c ∈ l, c.isDigit = false) : parseUDigits l = none := by
  cases l with
  | nil => rfl
  | cons c rest => simp [parseUDigits, h c (by simp)]

/-- Characters surviving the whitespace strip come from the original
string. -/
theorem mem_stripPyWs {s : PyStr} {c : Char} (h : c ∈ stripPyWs s) : c ∈ s := by
  unfold stripPyWs at h
  rw [List.mem_reverse] at h
  have h2 := (List.dropWhile_sublist isPyWs).mem h
  rw [List.mem_reverse] at h2
  exact (List.dropWhile_sublist isPyWs).mem h2

/-- Evaluation of `pyInt` when the whitespace-stripped string is empty. -/
theorem pyInt_eval_nil {s : PyStr} (h : stripPyWs s = []) : pyInt s = none := by
  unfold pyInt
  rw [h]

/-- Evaluation of `pyInt` when the whitespace-stripped string is nonempty:
the sign-and-digits phase. -/
theorem pyInt_eval_cons {s : PyStr} {c : Char} {rest : List Char}
    (h : stripPyWs s = c :: rest) :
    pyInt s =
      (if c = '+' then (parseUDigits rest).map (fun n => (n : Int))
       else if c = '-' then (parseUDigits rest).map (fun n => -(n : Int))
       else (parseUDigits (c :: rest)).map (fun n => (n : Int))) := by
  unfold pyInt
  rw [h]

/-- A string without any digit is rejected by Python `int(...)`. -/
theorem pyInt_none_of_no_digit {s : PyStr}
    (h : ∀ c ∈ s, c.isDigit = false) : pyInt s = none := by
  cases hstrip : stripPyWs s with
  | nil => exact pyInt_eval_nil hstrip
  | cons c rest =>
    rw [pyInt_eval_cons hstrip]
    have hcs : c ∈ s := mem_stripPyWs (by rw [hstrip]; simp)
    have hrest : ∀ x ∈ rest, x.isDigit = false := fun x hx =>
      h x (mem_stripPyWs (by rw [hstrip]; simp [hx]))
    by_cases hplus : c = '+'
    · rw [if_pos hplus, parseUDigits_none_of_no_digit hrest]
      rfl
    · by_cases hminus : c = '-'
      · rw [if_neg hplus, if_pos hminus, parseUDigits_none_of_no_digit hrest]
        rfl
      · rw [if_neg hplus, if_neg hminus, parseUDigits_none_of_no_digit ?_]
        · rfl
        · intro x hx
          rcases List.mem_cons.mp hx with hx | hx
          · rw [hx]
            exact h c hcs
          · exact hrest x hx

/-- An all-digit tail always parses. -/
theorem parseUDigitsAux_some_of_digits (acc : Nat) {l : List Char}
    (h : ∀ c ∈ l, c.isDigit = true) : ∃ m, parseUDigitsAux acc l = some m := by
  induction l generalizing acc with
  | nil => exact ⟨acc, rfl⟩
  | cons c rest ih =>
    have hc : c.isDigit = true := h c (by simp)
    rw [parseUDigitsAux.eq_def]
    simp only [hc, if_true]
    exact ih _ (fun x hx => h x (by simp [hx]))

/-- A digit is not Python integer-literal whitespace. -/
theorem not_ws_of_digit {c : Char} (h : c.isDigit = true) : isPyWs c = false := by
  simp only [isPyWs, Bool.or_eq_false_iff, beq_eq_false_iff_ne, ne_eq]
  refine ⟨⟨⟨⟨⟨?_, ?_⟩, ?_⟩, ?_⟩, ?_⟩, ?_⟩ <;> rintro rfl <;>
    exact absurd h (by decide)

/-- A nonempty all-digit string is accepted by Python `int(...)`. -/
theorem pyInt_some_of_digits {d : PyStr} (hne : d ≠ [])
    (h : ∀ c ∈ d, c.isDigit = true) : ∃ n, pyInt d = some n := by
  have hws : ∀ c ∈ d, isPyWs c = false := fun c hc => not_ws_of_digit (h c hc)
  have hstrip : stripPyWs d = d := by
    unfold stripPyWs
    rw [dropWhile_no _ _ hws, dropWhile_no _ _ ?_, List.reverse_reverse]
    intro c hc
    exact hws c (List.mem_reverse.mp hc)
  cases d with
  | nil => exact absurd rfl hne
  | cons c rest =>
    rw [pyInt_eval_cons hstrip]
    have hc : c.isDigit = true := h c (by simp)
    have hplus : c ≠ '+' := by
      rintro rfl
      exact absurd hc (by decide)
    have hminus : c ≠ '-' := by
      rintro rfl
      exact absurd hc (by decide)
    rw [if_neg hplus, if_neg hminus]
    obtain ⟨m, hm⟩ := @parseUDigitsAux_some_of_digits (digitVal c) rest
      (fun x hx => h x (by simp [hx]))
    refine ⟨(m : Int), ?_⟩
    simp [parseUDigits, hc, hm]

/-- A digit-free part becomes a string key. -/
theorem try_int_str_of_no_digit {p : PyStr} (h : ∀ c ∈ p, c.isDigit = false) :
    try_int_or_force_to_lower_case p = .str (norm_fold p) := by
  unfold try_int_or_force_to_lower_case
  rw [pyInt_none_of_no_digit h]

/-- A nonempty all-digit part becomes an integer key. -/
theorem try_int_int_of_digits {d : PyStr} (hne : d ≠ [])
    (h : ∀ c ∈ d, c.isDigit = true) :
    ∃ n, try_int_or_force_to_lower_case d = .int n := by
  obtain ⟨n, hn⟩ := pyInt_some_of_digits hne h
  refine ⟨n, ?_⟩
  unfold try_int_or_force_to_lower_case
  rw [hn]

/-- The shape produced by `re.split('(\d+)', ...)`: an odd-length list
alternating between digit-free parts and nonempty all-digit runs, beginning
and ending with a digit-free part. -/
inductive DigitAlt : List PyStr → Prop where
  | single (p : PyStr) (hp : ∀ c ∈ p, c.isDigit = false) : DigitAlt [p]
  | cons (p d : PyStr) {rest : List PyStr} (hp : ∀ c ∈ p, c.isDigit = false)
      (hd : d ≠ []) (hdd : ∀ c ∈ d, c.isDigit = true) (h : DigitAlt rest) :
      DigitAlt (p :: d :: rest)

theorem splitDigitRunsGo_alt :
    ∀ (n : Nat) (s : PyStr), s.length ≤ n → DigitAlt (splitDigitRunsGo n s) := by
  intro n
  induction n with
  | zero =>
    intro s hlen
    have hs : s = [] := by
      cases s with
      | nil => rfl
      | cons a l => simp at hlen
    subst hs
    exact DigitAlt.single [] (by simp)
  | succ n ih =>
    intro s hlen
    cases hdrop : s.dropWhile (fun c => !c.isDigit) with
    | nil =>
      have heq : splitDigitRunsGo (n + 1) s = [s] := by
        simp [splitDigitRunsGo, hdrop]
      rw [heq]
      refine DigitAlt.single s ?_
      intro c hc
      have := (List.dropWhile_eq_nil_iff).mp hdrop c hc
      simpa using this
    | cons d t =>
      have heq : splitDigitRunsGo (n + 1) s =
          s.takeWhile (fun c => !c.isDigit) :: (d :: t).takeWhile Char.isDigit ::
            splitDigitRunsGo n ((d :: t).dropWhile Char.isDigit) := by
        simp [splitDigitRunsGo, hdrop]
      rw [heq]
      have hd2 : d.isDigit = true := by
        have := @dropWhile_head_false Char (fun c => !c.isDigit) s t d hdrop
        simpa using this
      refine DigitAlt.cons _ _ ?_ ?_ ?_ ?_
      · intro c hc
        have := List.mem_takeWhile_imp hc
        simpa using this
      · rw [List.takeWhile_cons, if_pos hd2]
        simp
      · intro c hc
        exact List.mem_takeWhile_imp hc
      · apply ih
        have h1 : (d :: t).dropWhile Char.isDigit = t.dropWhile Char.isDigit := by
          rw [List.dropWhile_cons, if_pos hd2]
        have h2 : (t.dropWhile Char.isDigit).length ≤ t.length :=
          (List.dropWhile_sublist Char.isDigit).length_le
        have h3 : (d :: t).length ≤ s.length := by
          rw [← hdrop]
          exact (List.dropWhile_sublist (fun c : Char => !c.isDigit)).length_le
        rw [h1]
        simp at h3
        omega

theorem splitDigitRuns_alt (s : PyStr) : DigitAlt (splitDigitRuns s) :=
  splitDigitRunsGo_alt s.length s le_rfl

/-- The shape of a natural key list: strictly alternating string and integer
entries, beginning and ending with a string entry (so the length is odd). -/
inductive StrIntAlt : List SortKey → Prop where
  | single (p : PyStr) : StrIntAlt [.str p]
  | cons (p : PyStr) (n : Int) {rest : List SortKey} (h : StrIntAlt rest) :
      StrIntAlt (.str p :: .int n :: rest)

theorem natural_keys_strIntAlt (s : PyStr) : StrIntAlt (natural_keys s) := by
  unfold natural_keys
  have h := splitDigitRuns_alt s
  generalize splitDigitRuns s = parts at h ⊢
  induction h with
  | single p hp =>
    simp only [List.map]
    rw [try_int_str_of_no_digit hp]
    exact StrIntAlt.single _
  | cons p d hp hd hdd h ih =>
    simp only [List.map]
    rw [try_int_str_of_no_digit hp]
    obtain ⟨n, hn⟩ := try_int_int_of_digits hd hdd
    rw [hn]
    exact StrIntAlt.cons _ _ ih

theorem strIntAlt_length_odd {k : List SortKey} (h : StrIntAlt k) :
    k.length % 2 = 1 := by
  induction h with
  | single p => rfl
  | cons p n h ih =>
    simp only [List.length_cons]
    omega

/-- Keys of alternating shape always compare: positionally, a string always
meets a string and an integer always meets an integer, so the cross-type
`TypeError` case is unreachable. -/
theorem cmpKeys_total_of_alt {k1 k2 : List SortKey}
    (h1 : StrIntAlt k1) (h2 : StrIntAlt k2) : cmpKeys k1 k2 ≠ none := by
  induction h1 generalizing k2 with
  | single p =>
    cases h2 with
    | single q =>
      have hk : cmpKey (.str p) (.str q) = some (cmpStrLex p q) := rfl
      cases ho : cmpStrLex p q
      · rw [cmpKeys_cons_lt (by rw [hk, ho])]
        simp
      · rw [cmpKeys_cons_eq (by rw [hk, ho])]
        simp [cmpKeys]
      · rw [cmpKeys_cons_gt (by rw [hk, ho])]
        simp
    | cons q m h2x =>
      have hk : cmpKey (.str p) (.str q) = some (cmpStrLex p q) := rfl
      cases ho : cmpStrLex p q
      · rw [cmpKeys_cons_lt (by rw [hk, ho])]
        simp
      · rw [cmpKeys_cons_eq (by rw [hk, ho])]
        simp [cmpKeys]
      · rw [cmpKeys_cons_gt (by rw [hk, ho])]
        simp
  | cons p nn h1x ih =>
    cases h2 with
    | single q =>
      have hk : cmpKey (.str p) (.str q) = some (cmpStrLex p q) := rfl
      cases ho : cmpStrLex p q
      · rw [cmpKeys_cons_lt (by rw [hk, ho])]
        simp
      · rw [cmpKeys_cons_eq (by rw [hk, ho])]
        simp [cmpKeys]
      · rw [cmpKeys_cons_gt (by rw [hk, ho])]
        simp
    | cons q m h2x =>
      have hk : cmpKey (.str p) (.str q) = some (cmpStrLex p q) := rfl
      cases ho : cmpStrLex p q
      · rw [cmpKeys_cons_lt (by rw [hk, ho])]
        simp
      · rw [cmpKeys_cons_eq (by rw [hk, ho])]
        have hk2 : cmpKey (.int nn) (.int m) = some (intCmp nn m) := rfl
        cases ho2 : intCmp nn m
        · rw [cmpKeys_cons_lt (by rw [hk2, ho2])]
          simp
        · rw [cmpKeys_cons_eq (by rw [hk2, ho2])]
          exact ih h2x
        · rw [cmpKeys_cons_gt (by rw [hk2, ho2])]
          simp
      · rw [cmpKeys_cons_gt (by rw [hk, ho])]
        simp

/-- Any two strings have comparable natural keys. -/
theorem natKeyCmp_some (x y : PyStr) : ∃ o, natKeyCmp x y = some o := by
  have h := cmpKeys_total_of_alt (natural_keys_strIntAlt x) (natural_keys_strIntAlt y)
  cases hc : cmpKeys (natural_keys x) (natural_keys y) with
  | none => exact absurd hc h
  | some o => exact ⟨o, hc⟩

theorem natLe_total (x y : PyStr) : natLe x y ∨ natLe y x := by
  obtain ⟨o, ho⟩ := natKeyCmp_some x y
  cases o with
  | lt =>
    left
    unfold natLe
    rw [ho]
    simp
  | eq =>
    left
    unfold natLe
    rw [ho]
    simp
  | gt =>
    right
    unfold natLe natKeyCmp
    have hsw : cmpKeys (natural_keys y) (natural_keys x) = some .lt :=
      cmpKeys_swap ho
    rw [hsw]
    simp

theorem natLe_trans {x y z : PyStr} (h1 : natLe x y) (h2 : natLe y z) :
    natLe x z := by
  obtain ⟨o1, ho1⟩ := natKeyCmp_some x y
  obtain ⟨o2, ho2⟩ := natKeyCmp_some y z
  unfold natLe natKeyCmp at h1 h2 ⊢
  unfold natKeyCmp at ho1 ho2
  cases o1 with
  | gt => exact absurd ho1 h1
  | eq =>
    have hkeys : natural_keys x = natural_keys y := cmpKeys_eq ho1
    rw [hkeys]
    exact h2
  | lt =>
    cases o2 with
    | gt => exact absurd ho2 h2
    | eq =>
      have hkeys : natural_keys y = natural_keys z := cmpKeys_eq ho2
      rw [← hkeys, ho1]
      simp
    | lt =>
      rw [cmpKeys_lt_trans ho1 ho2]
      simp

/-- A strictly greater comparison separates the keys themselves. -/
theorem natKeyCmp_gt_keys_ne {x y : PyStr} (h : natKeyCmp x y = some .gt) :
    natural_keys x ≠ natural_keys y := by
  intro he
  unfold natKeyCmp at h
  rw [he, cmpKeys_refl] at h
  simp at h

theorem natLe_of_gt {x y : PyStr} (h : natKeyCmp x y = some .gt) : natLe y x := by
  unfold natLe natKeyCmp
  unfold natKeyCmp at h
  rw [cmpKeys_swap h]
  decide

/-! ### Insertion-sort lemmas -/

theorem insertByKey_nil (x : PyStr) : insertByKey x [] = some [x] := rfl

theorem insertByKey_cons_gt {x y : PyStr} {ys : List PyStr}
    (h : natKeyCmp x y = some .gt) :
    insertByKey x (y :: ys) = (insertByKey x ys).map (fun r => y :: r) := by
  rw [insertByKey.eq_def]
  simp only [h]

theorem insertByKey_cons_lt {x y : PyStr} {ys : List PyStr}
    (h : natKeyCmp x y = some .lt) :
    insertByKey x (y :: ys) = some (x :: y :: ys) := by
  rw [insertByKey.eq_def]
  simp only [h]

theorem insertByKey_cons_eqo {x y : PyStr} {ys : List PyStr}
    (h : natKeyCmp x y = some .eq) :
    insertByKey x (y :: ys) = some (x :: y :: ys) := by
  rw [insertByKey.eq_def]
  simp only [h]

theorem natural_sort_nil : natural_sort [] = some [] := rfl

theorem natural_sort_cons (x : PyStr) (xs : List PyStr) :
    natural_sort (x :: xs) = (natural_sort xs).bind (insertByKey x) := by
  rw [natural_sort.eq_def]

theorem insertByKey_some (x : PyStr) (l : List PyStr) :
    ∃ r, insertByKey x l = some r := by
  induction l with
  | nil => exact ⟨[x], rfl⟩
  | cons y ys ih =>
    obtain ⟨o, ho⟩ := natKeyCmp_some x y
    cases o with
    | gt =>
      obtain ⟨r, hr⟩ := ih
      exact ⟨y :: r, by rw [insertByKey_cons_gt ho, hr]; rfl⟩
    | lt => exact ⟨x :: y :: ys, insertByKey_cons_lt ho⟩
    | eq => exact ⟨x :: y :: ys, insertByKey_cons_eqo ho⟩

/-- The inserted list decomposes as the passed-over prefix (strictly below
`x`), then `x`, then the untouched suffix whose head is not below `x`. -/
theorem insertByKey_decomp {x : PyStr} {l r : List PyStr}
    (h : insertByKey x l = some r) :
    ∃ l1 l2, l = l1 ++ l2 ∧ r = l1 ++ x :: l2 ∧
      (∀ y ∈ l1, natKeyCmp x y = some .gt) ∧
      (∀ z, l2.head? = some z → natKeyCmp x z ≠ some .gt) := by
  induction l generalizing r with
  | nil =>
    rw [insertByKey_nil] at h
    injection h with h2
    subst h2
    exact ⟨[], [], rfl, rfl, by simp, by simp⟩
  | cons y ys ih =>
    obtain ⟨o, ho⟩ := natKeyCmp_some x y
    cases o with
    | gt =>
      rw [insertByKey_cons_gt ho] at h
      cases hys : insertByKey x ys with
      | none =>
        rw [hys] at h
        cases h
      | some r0 =>
        rw [hys] at h
        simp only [Option.map_some', Option.some.injEq] at h
        subst h
        obtain ⟨l1, l2, hl, hr, hgt, hle⟩ := ih hys
        refine ⟨y :: l1, l2, by simp [hl], by simp [hr], ?_, hle⟩
        intro z hz
        rcases List.mem_cons.mp hz with hz | hz
        · rw [hz]
          exact ho
        · exact hgt z hz
    | lt =>
      rw [insertByKey_cons_lt ho] at h
      injection h with h2
      subst h2
      refine ⟨[], y :: ys, rfl, rfl, by simp, ?_⟩
      intro z hz
      simp only [List.head?_cons, Option.some.injEq] at hz
      subst hz
      rw [ho]
      simp
    | eq =>
      rw [insertByKey_cons_eqo ho] at h
      injection h with h2
      subst h2
      refine ⟨[], y :: ys, rfl, rfl, by simp, ?_⟩
      intro z hz
      simp only [List.head?_cons, Option.some.injEq] at hz
      subst hz
      rw [ho]
      simp

theorem insertByKey_perm {x : PyStr} {l r : List PyStr}
    (h : insertByKey x l = some r) : r.Perm (x :: l) := by
  obtain ⟨l1, l2, hl, hr, -, -⟩ := insertByKey_decomp h
  subst hl
  subst hr
  exact List.perm_middle

theorem insertByKey_pairwise {x : PyStr} {l r : List PyStr}
    (hl : List.Pairwise natLe l) (h : insertByKey x l = some r) :
    List.Pairwise natLe r := by
  induction l generalizing r with
  | nil =>
    rw [insertByKey_nil] at h
    injection h with h2
    subst h2
    simp
  | cons y ys ih =>
    obtain ⟨hy, hys⟩ := List.pairwise_cons.mp hl
    obtain ⟨o, ho⟩ := natKeyCmp_some x y
    cases o with
    | gt =>
      rw [insertByKey_cons_gt ho] at h
      cases hys2 : insertByKey x ys with
      | none =>
        rw [hys2] at h
        cases h
      | some r0 =>
        rw [hys2] at h
        simp only [Option.map_some', Option.some.injEq] at h
        subst h
        refine List.pairwise_cons.mpr ⟨?_, ih hys hys2⟩
        intro z hz
        have hmem : z = x ∨ z ∈ ys := by
          have hp := insertByKey_perm hys2
          have := hp.mem_iff.mp hz
          simpa using this
        rcases hmem with hz2 | hz2
        · rw [hz2]
          exact natLe_of_gt ho
        · exact hy z hz2
    | lt =>
      rw [insertByKey_cons_lt ho] at h
      injection h with h2
      subst h2
      have hxy : natLe x y := by
        unfold natLe
        rw [ho]
        simp
      refine List.pairwise_cons.mpr ⟨?_, hl⟩
      intro z hz
      rcases List.mem_cons.mp hz with hz | hz
      · rw [hz]
        exact hxy
      · exact natLe_trans hxy (hy z hz)
    | eq =>
      rw [insertByKey_cons_eqo ho] at h
      injection h with h2
      subst h2
      have hxy : natLe x y := by
        unfold natLe
        rw [ho]
        simp
      refine List.pairwise_cons.mpr ⟨?_, hl⟩
      intro z hz
      rcases List.mem_cons.mp hz with hz | hz
      · rw [hz]
        exact hxy
      · exact natLe_trans hxy (hy z hz)

theorem insertByKey_filter {x : PyStr} {l r : List PyStr}
    (h : insertByKey x l = some r) (k : List SortKey) :
    r.filter (fun z => decide (natural_keys z = k)) =
      (if natural_keys x = k then [x] else []) ++
        l.filter (fun z => decide (natural_keys z = k)) := by
  obtain ⟨l1, l2, hl, hr, hgt, -⟩ := insertByKey_decomp h
  subst hl
  subst hr
  by_cases hk : natural_keys x = k
  · have hl1 : l1.filter (fun z => decide (natural_keys z = k)) = [] := by
      rw [List.filter_eq_nil_iff]
      intro z hz
      have hne := natKeyCmp_gt_keys_ne (hgt z hz)
      simp only [decide_eq_true_eq]
      rw [← hk]
      exact fun he => hne he.symm
    rw [List.filter_append, List.filter_append, hl1]
    simp [hk]
  · rw [List.filter_append, List.filter_append]
    simp [hk]

/-! ### Main sorting theorems -/

theorem natural_sort_sorts (l r : List PyStr) (h : natural_sort l = some r) :
    r.Perm l ∧ List.Pairwise natLe r ∧
      ∀ k, r.filter (fun z => decide (natural_keys z = k)) =
        l.filter (fun z => decide (natural_keys z = k)) := by
  induction l generalizing r with
  | nil =>
    rw [natural_sort_nil] at h
    injection h with h2
    subst h2
    exact ⟨List.Perm.refl _, by simp, fun k => rfl⟩
  | cons x xs ih =>
    rw [natural_sort_cons] at h
    cases hxs : natural_sort xs with
    | none =>
      rw [hxs] at h
      cases h
    | some r0 =>
      rw [hxs] at h
      simp only [Option.some_bind] at h
      obtain ⟨hperm0, hpair0, hfil0⟩ := ih r0 hxs
      refine ⟨(insertByKey_perm h).trans (hperm0.cons x),
        insertByKey_pairwise hpair0 h, ?_⟩
      intro k
      rw [insertByKey_filter h k, hfil0 k]
      by_cases hk : natural_keys x = k
      · simp [List.filter_cons, hk]
      · simp [List.filter_cons, hk]

theorem natural_sort_isSome (l : List PyStr) : (natural_sort l).isSome = true := by
  induction l with
  | nil => rfl
  | cons x xs ih =>
    rw [natural_sort_cons]
    cases hxs : natural_sort xs with
    | none =>
      rw [hxs] at ih
      simp at ih
    | some r0 =>
      obtain ⟨r, hr⟩ := insertByKey_some x r0
      simp [hr]

theorem strIntAlt_head {k : List SortKey} (h : StrIntAlt k) :
    ∃ p, k.head? = some (.str p) := by
  cases h with
  | single p => exact ⟨p, rfl⟩
  | cons p n h => exact ⟨p, rfl⟩

theorem strIntAlt_last {k : List SortKey} (h : StrIntAlt k) :
    ∃ q, k.getLast? = some (.str q) := by
  induction h with
  | single p => exact ⟨p, rfl⟩
  | @cons p n rest h ih =>
    obtain ⟨q, hq⟩ := ih
    refine ⟨q, ?_⟩
    rw [List.getLast?_cons_cons]
    cases rest with
    | nil => simp at hq
    | cons r rs =>
      rw [List.getLast?_cons_cons]
      exact hq

/-! ### Claim theorems about natural sorting -/

/-- C5: for every string, `natural_keys` produces an odd-length list that
strictly alternates between string and integer entries, beginning and ending
with a (possibly empty) string entry; consequently the lexicographic key
comparison used by `natural_sort` never compares an integer with a string
(every pairwise key comparison is defined), and `natural_sort` succeeds on
every list of strings. -/
theorem natural_keys_alternate_and_sort_never_fails :
    (∀ s : PyStr, StrIntAlt (natural_keys s) ∧
      (natural_keys s).length % 2 = 1 ∧
      (∃ p, (natural_keys s).head? = some (.str p)) ∧
      (∃ q, (natural_keys s).getLast? = some (.str q))) ∧
    (∀ s t : PyStr, natKeyCmp s t ≠ none) ∧
    (∀ l : List PyStr, (natural_sort l).isSome = true) := by
  refine ⟨?_, ?_, natural_sort_isSome⟩
  · intro s
    have h := natural_keys_strIntAlt s
    exact ⟨h, strIntAlt_length_odd h, strIntAlt_head h, strIntAlt_last h⟩
  · intro s t hcontra
    obtain ⟨o, ho⟩ := natKeyCmp_some s t
    rw [hcontra] at ho
    cases ho

/-- C6: `natural_sort` stably sorts its input by the natural key (split on
digit runs, digit runs as integers, other parts case-folded), compared
lexicographically: every successful result is a permutation of the input,
pairwise ordered under the key comparison, and elements with equal keys keep
their original relative order (the filter by any fixed key value is
unchanged); on the spec's example it yields the stated list. -/
theorem natural_sort_correct :
    (∀ l r : List PyStr, natural_sort l = some r →
      r.Perm l ∧ List.Pairwise natLe r ∧
        ∀ k, r.filter (fun z => decide (natural_keys z = k)) =
          l.filter (fun z => decide (natural_keys z = k))) ∧
    natural_sort [['a', '1'], ['A', '1', '1'], ['A', '2'], ['a', '2', '2'], ['a', '3']] =
      some [['a', '1'], ['A', '2'], ['a', '3'], ['A', '1', '1'], ['a', '2', '2']] :=
  ⟨natural_sort_sorts, by decide⟩

/-- Witness for C6: the general sorting properties applied to a concrete
successful run of `natural_sort`. -/
theorem natural_sort_correct_witness :
    ([['a', '1'], ['A', '2']] : List PyStr).Perm [['A', '2'], ['a', '1']] ∧
    List.Pairwise natLe [['a', '1'], ['A', '2']] :=
  have h := natural_sort_correct.1 [['A', '2'], ['a', '1']] [['a', '1'], ['A', '2']]
    (by decide)
  ⟨h.1, h.2.1⟩

/-- Witness for C5 at concrete inputs. -/
theorem natural_keys_alternate_witness :
    StrIntAlt (natural_keys ['a', '1']) ∧
    natKeyCmp ['a', '1'] ['b'] ≠ none ∧
    (natural_sort [['b'], ['a', '1']]).isSome = true :=
  ⟨(natural_keys_alternate_and_sort_never_fails.1 ['a', '1']).1,
   natural_keys_alternate_and_sort_never_fails.2.1 ['a', '1'] ['b'],
   natural_keys_alternate_and_sort_never_fails.2.2 [['b'], ['a', '1']]⟩

/-! ### Duplicate removal -/

/-- Model of `remove_duplicates`: inserting every item into an
`OrderedDict` keeps the keys in first-insertion order (re-assigning an
existing key leaves its position unchanged), so the dict's key sequence is
the fold below, and the function returns its keys. -/
def remove_duplicates {α : Type} [DecidableEq α] (list_to_prune : List α) : List α :=
  list_to_prune.foldl (fun acc item => if item ∈ acc then acc else acc ++ [item]) []

/-- Specification-side description: the first occurrence of each distinct
element, in the input's original order. -/
def firstOccurrences {α : Type} [DecidableEq α] : List α → List α
  | [] => []
  | x :: xs => x :: firstOccurrences (xs.filter (fun y => y ≠ x))
termination_by l => l.length
decreasing_by
  have := List.length_filter_le (fun y => decide (y ≠ x)) xs
  simp only [List.length_cons]
  omega

theorem firstOccurrences_nil {α : Type} [DecidableEq α] :
    firstOccurrences ([] : List α) = [] := by
  rw [firstOccurrences]

theorem firstOccurrences_cons {α : Type} [DecidableEq α] (x : α) (xs : List α) :
    firstOccurrences (x :: xs) = x :: firstOccurrences (xs.filter (fun y => y ≠ x)) := by
  rw [firstOccurrences]

/-- The fold underlying `remove_duplicates` appends exactly the first
occurrences of the not-yet-seen elements. -/
theorem foldl_dedup_eq {α : Type} [DecidableEq α] (l : List α) :
    ∀ acc : List α,
      List.foldl (fun acc item => if item ∈ acc then acc else acc ++ [item]) acc l =
        acc ++ firstOccurrences (l.filter (fun y => y ∉ acc)) := by
  induction l with
  | nil =>
    intro acc
    simp [firstOccurrences_nil]
  | cons x xs ih =>
    intro acc
    by_cases hx : x ∈ acc
    · rw [List.foldl_cons, if_pos hx, ih acc]
      have hfil : (x :: xs).filter (fun y => y ∉ acc) =
          xs.filter (fun y => y ∉ acc) := by
        rw [List.filter_cons]
        simp [hx]
      rw [hfil]
    · rw [List.foldl_cons, if_neg hx, ih (acc ++ [x])]
      have hfil : (x :: xs).filter (fun y => y ∉ acc) =
          x :: xs.filter (fun y => y ∉ acc) := by
        rw [List.filter_cons]
        simp [hx]
      rw [hfil, firstOccurrences_cons]
      have hfil2 : (xs.filter (fun y => y ∉ acc)).filter (fun y => y ≠ x) =
          xs.filter (fun y => y ∉ acc ++ [x]) := by
        rw [List.filter_filter]
        apply List.filter_congr
        intro y hy
        by_cases h1 : y = x <;> by_cases h2 : y ∈ acc <;> simp [h1, h2]
      rw [hfil2]
      simp

theorem remove_duplicates_eq_firstOccurrences {α : Type} [DecidableEq α]
    (l : List α) : remove_duplicates l = firstOccurrences l := by
  unfold remove_duplicates
  rw [foldl_dedup_eq l []]
  have : l.filter (fun y => y ∉ ([] : List α)) = l := by
    apply List.filter_eq_self.mpr
    intro a ha
    simp
  rw [this]
  simp

theorem firstOccurrences_sublist {α : Type} [DecidableEq α] :
    ∀ (n : Nat) (l : List α), l.length ≤ n → (firstOccurrences l).Sublist l := by
  intro n
  induction n with
  | zero =>
    intro l hlen
    have hl : l = [] := by
      cases l with
      | nil => rfl
      | cons a as => simp at hlen
    subst hl
    rw [firstOccurrences_nil]
  | succ n ih =>
    intro l hlen
    cases l with
    | nil =>
      rw [firstOccurrences_nil]
    | cons x xs =>
      rw [firstOccurrences_cons]
      refine List.Sublist.cons₂ x ?_
      have hf := List.length_filter_le (fun y => decide (y ≠ x)) xs
      have hsub := ih (xs.filter (fun y => y ≠ x)) (by simp at hlen; omega)
      exact hsub.trans (List.filter_sublist xs)

theorem firstOccurrences_mem {α : Type} [DecidableEq α] :
    ∀ (n : Nat) (l : List α), l.length ≤ n →
      ∀ x, x ∈ firstOccurrences l ↔ x ∈ l := by
  intro n
  induction n with
  | zero =>
    intro l hlen x
    have hl : l = [] := by
      cases l with
      | nil => rfl
      | cons a as => simp at hlen
    subst hl
    rw [firstOccurrences_nil]
  | succ n ih =>
    intro l hlen x
    cases l with
    | nil => rw [firstOccurrences_nil]
    | cons a as =>
      rw [firstOccurrences_cons]
      have hrec := ih (as.filter (fun y => y ≠ a)) (by
        have := List.length_filter_le (fun y => decide (y ≠ a)) as
        simp at hlen
        omega) x
      simp only [List.mem_cons, hrec, List.mem_filter, decide_eq_true_eq]
      by_cases hxa : x = a
      · simp [hxa]
      · simp [hxa]

theorem firstOccurrences_nodup {α : Type} [DecidableEq α] :
    ∀ (n : Nat) (l : List α), l.length ≤ n → (firstOccurrences l).Nodup := by
  intro n
  induction n with
  | zero =>
    intro l hlen
    have hl : l = [] := by
      cases l with
      | nil => rfl
      | cons a as => simp at hlen
    subst hl
    rw [firstOccurrences_nil]
    exact List.nodup_nil
  | succ n ih =>
    intro l hlen
    cases l with
    | nil =>
      rw [firstOccurrences_nil]
      exact List.nodup_nil
    | cons a as =>
      rw [firstOccurrences_cons]
      have hbound : (as.filter (fun y => y ≠ a)).length ≤ n := by
        have := List.length_filter_le (fun y => decide (y ≠ a)) as
        simp at hlen
        omega
      refine List.nodup_cons.mpr ⟨?_, ih _ hbound⟩
      intro hmem
      have := (firstOccurrences_mem n _ hbound a).mp hmem
      simp at this

/-- C7: `remove_duplicates` returns exactly the first occurrence of each
distinct element, in the original relative order (it equals the
first-occurrence recursion, is duplicate-free, is a subsequence of the input
and has the same members); on the spec's example it gives `[3, 1, 2]`. -/
theorem remove_duplicates_correct :
    (∀ {α : Type} [DecidableEq α] (l : List α),
      remove_duplicates l = firstOccurrences l ∧
      (remove_duplicates l).Nodup ∧ (remove_duplicates l).Sublist l ∧
      (∀ x, x ∈ remove_duplicates l ↔ x ∈ l)) ∧
    remove_duplicates [3, 1, 3, 2, 1] = [3, 1, 2] := by
  constructor
  · intro α inst l
    have he := remove_duplicates_eq_firstOccurrences l
    refine ⟨he, ?_, ?_, ?_⟩
    · rw [he]
      exact firstOccurrences_nodup l.length l le_rfl
    · rw [he]
      exact firstOccurrences_sublist l.length l le_rfl
    · intro x
      rw [he]
      exact firstOccurrences_mem l.length l le_rfl x
  · decide

/-- Witness for C7 at a concrete input. -/
theorem remove_duplicates_correct_witness :
    (remove_duplicates [3, 1, 3, 2, 1]).Nodup ∧
    ((3 : Int) ∈ remove_duplicates [3, 1, 3, 2, 1] ↔ (3 : Int) ∈ [3, 1, 3, 2, 1]) :=
  ⟨(remove_duplicates_correct.1 [3, 1, 3, 2, 1]).2.1,
   (remove_duplicates_correct.1 [(3 : Int), 1, 3, 2, 1]).2.2.2 3⟩

/-! ### Text-file detection -/

/-- Strict ASCII decoding of a byte sequence (`codecs.open(...,
encoding='ascii', errors='strict')`): every byte below 128 is its own code
point; any other byte raises `UnicodeDecodeError`, modelled as `none`. -/
def decodeAsciiCp : List Nat → Option (List Nat)
  | [] => some []
  | b :: bs => if b < 128 then (decodeAsciiCp bs).map (fun t => b :: t) else none

/-- A UTF-8 continuation byte (`0x80..0xBF`). -/
def isUtf8Cont (b : Nat) : Bool := 128 ≤ b && b < 192

/-- One step of strict UTF-8 decoding: from a lead byte and the remaining
bytes, the decoded code point and the rest, or `none` on any malformed
sequence.  Strict mode rejects stray continuation bytes, the overlong leads
`0xC0`/`0xC1`, overlong 3- and 4-byte encodings, surrogate code points
`0xD800..0xDFFF`, and code points above `0x10FFFF` (leads `0xF5..0xFF`). -/
def utf8Step (b : Nat) (bs : List Nat) : Option (Nat × List Nat) :=
  if b < 128 then some (b, bs)
  else if b < 194 then none
  else if b < 224 then
    match bs with
    | b1 :: rest =>
      if isUtf8Cont b1 then some ((b - 192) * 64 + (b1 - 128), rest) else none
    | [] => none
  else if b < 240 then
    match bs with
    | b1 :: b2 :: rest =>
      if isUtf8Cont b1 && isUtf8Cont b2 &&
          decide (2048 ≤ (b - 224) * 4096 + (b1 - 128) * 64 + (b2 - 128)) &&
          !(decide (55296 ≤ (b - 224) * 4096 + (b1 - 128) * 64 + (b2 - 128)) &&
            decide ((b - 224) * 4096 + (b1 - 128) * 64 + (b2 - 128) < 57344))
      then some ((b - 224) * 4096 + (b1 - 128) * 64 + (b2 - 128), rest)
      else none
    | _ => none
  else if b < 245 then
    match bs with
    | b1 :: b2 :: b3 :: rest =>
      if isUtf8Cont b1 && isUtf8Cont b2 && isUtf8Cont b3 &&
          decide (65536 ≤
            (b - 240) * 262144 + (b1 - 128) * 4096 + (b2 - 128) * 64 + (b3 - 128)) &&
          decide ((b - 240) * 262144 + (b1 - 128) * 4096 + (b2 - 128) * 64 + (b3 - 128)
            ≤ 1114111)
      then some ((b - 240) * 262144 + (b1 - 128) * 4096 + (b2 - 128) * 64 + (b3 - 128),
        rest)
      else none
    | _ => none
  else none

/-- Strict UTF-8 decoding, with an explicit recursion budget making the
definition structural: every step consumes at least the lead byte, so a
budget of the byte count always suffices (the zero-budget arm is
unreachable from `decodeUtf8Cp`, as proved below via the length bound). -/
def decodeUtf8Go : Nat → List Nat → Option (List Nat)
  | _, [] => some []
  | 0, _ :: _ => none
  | n + 1, b :: bs =>
    match utf8Step b bs with
    | none => none
    | some (cp, rest) => (decodeUtf8Go n rest).map (fun t => cp :: t)

/-- Strict UTF-8 decoding of a byte sequence (`codecs.open(...,
encoding='utf-8', errors='strict')`). -/
def decodeUtf8Cp (bs : List Nat) : Option (List Nat) := decodeUtf8Go bs.length bs

/-- The number of lines seen when iterating a text file: zero for empty
text, otherwise one per newline plus a final unterminated line. -/
def pyLineCount (text : List Nat) : Nat :=
  match text with
  | [] => 0
  | _ :: _ => text.count 10 + (if text.getLast? = some 10 then 0 else 1)

/-- Model of `is_text_file`: the file content as bytes (`none` models an
`OSError`, i.e. an unreadable file).  The code first decodes as strict
ASCII and requires at least one line; on a `UnicodeDecodeError` it retries
as strict UTF-8; any remaining failure classifies the file as binary. -/
def is_text_file (content : Option (List Nat)) : Bool :=
  match content with
  | none => false
  | some bytes =>
    match decodeAsciiCp bytes with
    | some text => decide (0 < pyLineCount text)
    | none =>
      match decodeUtf8Cp bytes with
      | some text => decide (0 < pyLineCount text)
      | none => false

theorem pyLineCount_pos_iff (t : List Nat) : 0 < pyLineCount t ↔ t ≠ [] := by
  cases t with
  | nil => simp [pyLineCount]
  | cons a as =>
    simp only [pyLineCount, ne_eq, reduceCtorEq, not_false_eq_true, iff_true]
    by_cases hl : (a :: as).getLast? = some 10
    · rw [if_pos hl]
      have hopt : 10 ∈ (a :: as).getLast? := by
        rw [Option.mem_def]
        exact hl
      obtain ⟨hne, heq⟩ := List.mem_getLast?_eq_getLast hopt
      have hmem : 10 ∈ a :: as := by
        rw [heq]
        exact List.getLast_mem hne
      have := List.count_pos_iff.mpr hmem
      omega
    · rw [if_neg hl]
      omega

theorem decodeAsciiCp_length {bs cps : List Nat}
    (h : decodeAsciiCp bs = some cps) : cps.length = bs.length := by
  induction bs generalizing cps with
  | nil =>
    have h0 : decodeAsciiCp [] = some [] := rfl
    rw [h0] at h
    injection h with h2
    subst h2
    rfl
  | cons b bs ih =>
    have hc : decodeAsciiCp (b :: bs) =
        if b < 128 then (decodeAsciiCp bs).map (fun t => b :: t) else none := rfl
    rw [hc] at h
    by_cases hb : b < 128
    · rw [if_pos hb] at h
      cases hrec : decodeAsciiCp bs with
      | none =>
        rw [hrec] at h
        cases h
      | some t =>
        rw [hrec] at h
        simp only [Option.map_some', Option.some.injEq] at h
        subst h
        simp [ih hrec]
    · rw [if_neg hb] at h
      cases h

/-- A byte sequence that decodes under strict ASCII decodes identically
under strict UTF-8 (ASCII bytes are one-byte UTF-8 sequences). -/
theorem decodeAscii_decodeUtf8Go :
    ∀ (n : Nat) (bs cps : List Nat), bs.length ≤ n →
      decodeAsciiCp bs = some cps → decodeUtf8Go n bs = some cps := by
  intro n
  induction n with
  | zero =>
    intro bs cps hlen h
    have hbs : bs = [] := by
      cases bs with
      | nil => rfl
      | cons b l => simp at hlen
    subst hbs
    have h0 : decodeAsciiCp [] = some [] := rfl
    rw [h0] at h
    exact h
  | succ n ih =>
    intro bs cps hlen h
    cases bs with
    | nil =>
      have h0 : decodeAsciiCp [] = some [] := rfl
      rw [h0] at h
      exact h
    | cons b bs =>
      have hc : decodeAsciiCp (b :: bs) =
          if b < 128 then (decodeAsciiCp bs).map (fun t => b :: t) else none := rfl
      rw [hc] at h
      by_cases hb : b < 128
      · rw [if_pos hb] at h
        cases hrec : decodeAsciiCp bs with
        | none =>
          rw [hrec] at h
          cases h
        | some t =>
          rw [hrec] at h
          simp only [Option.map_some', Option.some.injEq] at h
          subst h
          have hstep : utf8Step b bs = some (b, bs) := by
            unfold utf8Step
            rw [if_pos hb]
          have hgo : decodeUtf8Go (n + 1) (b :: bs) =
              (decodeUtf8Go n bs).map (fun t => b :: t) := by
            show (match utf8Step b bs with
              | none => none
              | some (cp, rest) => (decodeUtf8Go n rest).map (fun t => cp :: t)) =
                (decodeUtf8Go n bs).map (fun t => b :: t)
            rw [hstep]
          rw [hgo, ih bs t (by simp at hlen; omega) hrec]
          rfl
      · rw [if_neg hb] at h
        cases h

theorem decodeAscii_decodeUtf8 {bs cps : List Nat}
    (h : decodeAsciiCp bs = some cps) : decodeUtf8Cp bs = some cps :=
  decodeAscii_decodeUtf8Go bs.length bs cps le_rfl h

/-- A successful UTF-8 decode of a nonempty byte sequence is nonempty. -/
theorem decodeUtf8Cp_ne_nil {b : Nat} {bs cps : List Nat}
    (h : decodeUtf8Cp (b :: bs) = some cps) : cps ≠ [] := by
  unfold decodeUtf8Cp at h
  simp only [List.length_cons] at h
  have hgo : decodeUtf8Go (bs.length + 1) (b :: bs) =
      (match utf8Step b bs with
       | none => none
       | some (cp, rest) => (decodeUtf8Go bs.length rest).map (fun t => cp :: t)) := rfl
  rw [hgo] at h
  cases hstep : utf8Step b bs with
  | none =>
    rw [hstep] at h
    cases h
  | some pr =>
    rw [hstep] at h
    obtain ⟨cp, rest⟩ := pr
    have h2 : (decodeUtf8Go bs.length rest).map (fun t => cp :: t) = some cps := h
    cases hrec : decodeUtf8Go bs.length rest with
    | none =>
      rw [hrec] at h2
      cases h2
    | some t =>
      rw [hrec] at h2
      simp only [Option.map_some', Option.some.injEq] at h2
      subst h2
      simp

/-- C9: `is_text_file` is true exactly when the byte content decodes under
strict ASCII or, failing that, strict UTF-8, and is nonempty (equivalently,
the decoded text has at least one line); an unreadable file (`OSError`) is
never a text file; a printable-ASCII file is a text file, and a file with an
invalid UTF-8 byte sequence is not. -/
theorem is_text_file_characterisation :
    (∀ bytes : List Nat, is_text_file (some bytes) = true ↔
      (((decodeAsciiCp bytes).isSome ∨ (decodeUtf8Cp bytes).isSome) ∧ bytes ≠ [])) ∧
    is_text_file none = false ∧
    is_text_file (some [72, 105, 33]) = true ∧
    is_text_file (some [195, 169, 10]) = true ∧
    is_text_file (some [195, 40]) = false := by
  refine ⟨?_, rfl, by decide, by decide, by decide⟩
  intro bytes
  have hunf : is_text_file (some bytes) =
      (match decodeAsciiCp bytes with
       | some text => decide (0 < pyLineCount text)
       | none =>
         match decodeUtf8Cp bytes with
         | some text => decide (0 < pyLineCount text)
         | none => false) := rfl
  rw [hunf]
  cases hascii : decodeAsciiCp bytes with
  | some t =>
    have hlen := decodeAsciiCp_length hascii
    simp only [decide_eq_true_eq]
    rw [pyLineCount_pos_iff]
    constructor
    · intro ht
      refine ⟨Or.inl (by simp), ?_⟩
      intro hbs
      apply ht
      apply List.length_eq_zero.mp
      rw [hlen, hbs]
      rfl
    · rintro ⟨-, hbs⟩
      intro ht
      apply hbs
      apply List.length_eq_zero.mp
      rw [← hlen, ht]
      rfl
  | none =>
    cases hutf : decodeUtf8Cp bytes with
    | some t =>
      simp only [decide_eq_true_eq]
      rw [pyLineCount_pos_iff]
      constructor
      · intro ht
        refine ⟨Or.inr (by simp), ?_⟩
        intro hbs
        subst hbs
        have h0 : decodeUtf8Cp ([] : List Nat) = some [] := rfl
        rw [h0] at hutf
        injection hutf with h2
        exact ht h2.symm
      · rintro ⟨-, hbs⟩
        cases bytes with
        | nil => exact absurd rfl hbs
        | cons b bs => exact decodeUtf8Cp_ne_nil hutf
    | none =>
      simp only [Bool.false_eq_true, false_iff]
      rintro ⟨hsome | hsome, -⟩ <;> simp at hsome

/-- Witness for C9 at a concrete input. -/
theorem is_text_file_characterisation_witness :
    is_text_file (some [72, 105]) = true :=
  (is_text_file_characterisation.1 [72, 105]).mpr
    ⟨Or.inl (by decide), by decide⟩

end Cmd2Utils
